import Mathlib

/-!
Verification development for the DataClean Pro repository.

The repository ships two source files, app.py and google_sheets.py.  The
cleaning pipeline (module cleaner) and the pricing calculator (module
pricing) are imported by app.py but their sources are not part of the
repository snapshot, so those two components are modelled from the
specification (and from the tier table printed by the welcome page of
app.py).  Everything else is translated directly from the Python sources.

Python strings are embedded as lists of characters, Python numbers as
Nat / Int / Rat, and table cells as a three-way sum (missing, numeric,
text), following the data model of the specification.
-/

/-! ## Text embedding: Python str as List Char -/

abbrev Str := List Char

/-- Whitespace test used by trimming, matching Python str.strip defaults
for the characters that occur in CSV data. -/
def isWsChar (c : Char) : Bool :=
  c = ' ' || c = '\t' || c = '\n' || c = '\r'

/-- Decimal digit test, by code point. -/
def isDigitChar (c : Char) : Bool :=
  48 ≤ c.toNat && c.toNat ≤ 57

/-- Characters kept verbatim by header normalization: lower-case ASCII
letters and decimal digits. -/
def keepChar (c : Char) : Bool :=
  (97 ≤ c.toNat && c.toNat ≤ 122) || (48 ≤ c.toNat && c.toNat ≤ 57)

/-- ASCII lower-casing of one character. -/
def lowerChar (c : Char) : Char :=
  if 65 ≤ c.toNat ∧ c.toNat ≤ 90 then Char.ofNat (c.toNat + 32) else c

/-- Remove trailing whitespace, structurally. -/
def rstripWs : Str → Str
  | [] => []
  | c :: rest => if rstripWs rest = [] ∧ isWsChar c then [] else c :: rstripWs rest

/-- Python str.strip: drop leading and trailing whitespace. -/
def trimStr (s : Str) : Str := rstripWs (s.dropWhile isWsChar)

/-! ## Decimal rendering of naturals (for column_i names and _k suffixes) -/

/-- Little-endian decimal digits of a natural number, with explicit fuel
so that the definition is structural and kernel-computable. -/
def digitsRevFuel : ℕ → ℕ → List ℕ
  | 0, _ => []
  | f + 1, n => if n < 10 then [n] else n % 10 :: digitsRevFuel f (n / 10)

/-- Decimal rendering of a natural number as characters, most significant
digit first; agrees with the Python decimal string of the number. -/
def natRepr (n : ℕ) : Str :=
  ((digitsRevFuel (n + 1) n).reverse).map Nat.digitChar

/-- Value of a little-endian digit list, used to prove natRepr injective. -/
def digitsVal : List ℕ → ℕ
  | [] => 0
  | d :: ds => d + 10 * digitsVal ds

/-- Value of a big-endian decimal digit character list. -/
def digitsToNat : Str → ℕ
  | [] => 0
  | c :: r => (c.toNat - 48) * 10 ^ r.length + digitsToNat r

/-! ## Pricing calculator, modelled from the spec -/

/-- Modelled from the spec: the pricing module is not part of the source
snapshot.  Tier table of the pricing calculator, as (upper row bound,
rate per row in thousandths of a dollar), taken from the tier list in
section 4.9 of the spec and the welcome page of app.py: first 100 rows
free, then 0.02 per row up to 500 rows, 0.015 up to 1500, 0.01 up to
10000, 0.008 up to 25000 and 0.007 up to 100000. -/
def tierTable : List (ℕ × ℕ) :=
  [(100, 0), (500, 20), (1500, 15), (10000, 10), (25000, 8), (100000, 7)]

/-- Modelled from the spec: cost in thousandths of a dollar of the rows
up to each tier bound; rows spanning a boundary are split, each portion
charged at the rate of its own tier. -/
def costMilsAux : ℕ → List (ℕ × ℕ) → ℕ → ℕ
  | _, [], _ => 0
  | prev, (ub, rate) :: rest, n =>
      rate * (min n ub - prev) + costMilsAux ub rest n

/-- Cost in thousandths of a dollar for a given row count. -/
def priceCostMils (n : ℕ) : ℕ := costMilsAux 0 tierTable n

/-- Numeric cost, as a rational currency amount, for a row count within
the supported bounds. -/
def priceCost (n : ℕ) : ℚ := (priceCostMils n : ℚ) / 1000

/-- Modelled from the spec: the pricing calculator.  Returns the pair
(cost, billable row count), or none as the requires-custom-pricing
signal when the row count exceeds the maximum tier bound of 100000. -/
def calculate_price (n : ℕ) : Option (ℚ × ℕ) :=
  if 100000 < n then none else some (priceCost n, n)

/-! ## Table data model -/

/-- A cell of a table: the missing marker, a numeric value, or text. -/
inductive Cell where
  | missing : Cell
  | num : ℚ → Cell
  | str : Str → Cell
deriving DecidableEq

/-- Missing-marker test. -/
def Cell.isMissing : Cell → Bool
  | .missing => true
  | _ => false

/-- True when the cell is a text cell. -/
def Cell.isStr : Cell → Bool
  | .str _ => true
  | _ => false

abbrev Row := List Cell

/-- A table: headers plus an ordered sequence of rows of cells. -/
structure Table where
  headers : List Str
  rows : List Row
deriving DecidableEq

/-! ## Column name standardization (spec section 4.1) -/

/-- One step of run collapsing.  The Bool state records whether the last
emitted character was the separator, so runs of characters that are not
kept collapse to a single underscore, and leading junk is absorbed when
the state starts as true. -/
def collapseAux : Bool → Str → Str
  | _, [] => []
  | prevSep, c :: rest =>
      if keepChar c then c :: collapseAux false rest
      else if prevSep then collapseAux true rest
      else '_' :: collapseAux true rest

/-- Remove trailing underscores, structurally. -/
def rstripU : Str → Str
  | [] => []
  | c :: rest => if rstripU rest = [] ∧ c = '_' then [] else c :: rstripU rest

/-- Modelled from the spec: header normalization of the cleaner module
(not in the source snapshot).  Lower-cases the header, strips leading
and trailing junk, and collapses every internal run of characters that
are not lower-case letters or digits to a single underscore. -/
def normalizeName (s : Str) : Str := rstripU (collapseAux true (s.map lowerChar))

/-- True when the first character of the list exists and is kept. -/
def headKeep : Str → Bool
  | [] => false
  | d :: _ => keepChar d

/-- Shape invariant of the tail of a normalized name: every character is
kept or an underscore, and every underscore is followed by a kept
character (so no trailing underscore and no underscore runs). -/
def goodAux : Str → Bool
  | [] => true
  | c :: rest => (keepChar c || (c = '_' && headKeep rest)) && goodAux rest

/-- Shape invariant of a normalized name: empty, or starting with a kept
character and satisfying goodAux. -/
def good (l : Str) : Bool :=
  match l with
  | [] => true
  | c :: _ => keepChar c && goodAux l

/-- Modelled from the spec: collision renaming.  A name already in use
receives the smallest numeric suffix _k with k at least 2 that is not in
use; the search range is large enough that a free suffix always exists. -/
def rename (used : List Str) (nm : Str) : Str :=
  if nm ∈ used then
    match (List.range (used.length + 1)).find?
        (fun i => decide ((nm ++ '_' :: natRepr (i + 2)) ∉ used)) with
    | some i => nm ++ '_' :: natRepr (i + 2)
    | none => nm
  else nm

/-- Left-to-right uniquification of a list of names: each name is renamed
away from every name emitted before it. -/
def uniqAux (used : List Str) : List Str → List Str
  | [] => []
  | nm :: rest =>
      rename used nm :: uniqAux (used ++ [rename used nm]) rest

/-! ## Cleaning log -/

/-- Structured cleaning log entries, one constructor per stage that can
report a non-trivial transformation. -/
inductive LogEntry where
  | renamed : Str → Str → LogEntry
  | droppedRows : ℕ → LogEntry
  | dedupedRows : ℕ → LogEntry
  | currencyConverted : ℕ → ℕ → LogEntry
  | datesNormalized : ℕ → ℕ → LogEntry
  | filled : ℕ → ℕ → LogEntry
deriving DecidableEq

/-- Modelled from the spec: the column name standardizer.  Returns the
new header list plus one log entry for every renamed column. -/
def standardizeHeaders (hs : List Str) : List Str × List LogEntry :=
  let ns := uniqAux [] (hs.map normalizeName)
  (ns, (hs.zip ns).filterMap
    (fun p => if p.1 = p.2 then none else some (.renamed p.1 p.2)))

/-! ## Whitespace and row normalization (spec section 4.2) -/

/-- Trim a single cell; a text cell that is empty after trimming becomes
the missing marker. -/
def trimCell : Cell → Cell
  | .str s => if trimStr s = [] then .missing else .str (trimStr s)
  | c => c

/-- A row is empty when every cell is the missing marker. -/
def rowEmpty (r : Row) : Bool := r.all Cell.isMissing

/-- Keep-first deduplication. -/
def dedupAux {α : Type} [DecidableEq α] (seen : List α) : List α → List α
  | [] => []
  | r :: rest =>
      if r ∈ seen then dedupAux (r :: seen) rest
      else r :: dedupAux (r :: seen) rest

/-! ## Numeric, currency and date parsing -/

/-- Parse an unsigned decimal number with an optional fractional part. -/
def parseUnsigned (s : Str) : Option ℚ :=
  let ip := s.takeWhile (fun c => c ≠ '.')
  match s.dropWhile (fun c => c ≠ '.') with
  | [] => if ip ≠ [] ∧ ip.all isDigitChar then some (digitsToNat ip : ℚ) else none
  | _ :: fp =>
      if ip ≠ [] ∧ fp ≠ [] ∧ ip.all isDigitChar ∧ fp.all isDigitChar then
        some ((digitsToNat ip : ℚ) + (digitsToNat fp : ℚ) / 10 ^ fp.length)
      else none

/-- Parse a plain number with an optional leading minus sign. -/
def parseNum (s : Str) : Option ℚ :=
  if s.head? = some '-' then (parseUnsigned s.tail).map Neg.neg
  else parseUnsigned s

/-- Body of a currency value: an optional leading dollar sign, then
digits with optional thousands separators and an optional fraction. -/
def parseCurrencyBody (t : Str) : Option ℚ :=
  parseUnsigned ((if t.head? = some '$' then t.tail else t).filter
    (fun c => c ≠ ','))

/-- Modelled from the spec: currency parsing of the cleaner module.
Parentheses around the amount denote a negative value. -/
def parseCurrency (s : Str) : Option ℚ :=
  if s.head? = some '(' then
    if s.getLast? = some ')' then
      (parseCurrencyBody s.tail.dropLast).map Neg.neg
    else none
  else parseCurrencyBody s

/-- Two-digit zero-padded decimal rendering. -/
def pad2 (n : ℕ) : Str := [Nat.digitChar (n / 10 % 10), Nat.digitChar (n % 10)]

/-- Four-digit zero-padded decimal rendering. -/
def pad4 (n : ℕ) : Str :=
  [Nat.digitChar (n / 1000 % 10), Nat.digitChar (n / 100 % 10),
   Nat.digitChar (n / 10 % 10), Nat.digitChar (n % 10)]

/-- Canonical date format YYYY-MM-DD. -/
def fmtDate : ℕ × ℕ × ℕ → Str
  | (y, m, d) => pad4 y ++ '-' :: (pad2 m ++ '-' :: pad2 d)

/-- Parse the canonical format YYYY-MM-DD, with range checks. -/
def parseDateISO : Str → Option (ℕ × ℕ × ℕ)
  | [y1, y2, y3, y4, h1, m1, m2, h2, d1, d2] =>
      if h1 = '-' ∧ h2 = '-' ∧ [y1, y2, y3, y4].all isDigitChar ∧
          [m1, m2].all isDigitChar ∧ [d1, d2].all isDigitChar then
        let y := digitsToNat [y1, y2, y3, y4]
        let m := digitsToNat [m1, m2]
        let d := digitsToNat [d1, d2]
        if 1 ≤ m ∧ m ≤ 12 ∧ 1 ≤ d ∧ d ≤ 31 then some (y, m, d) else none
      else none
  | _ => none

/-- Split a character list at every occurrence of a separator. -/
def splitC (sep : Char) : Str → List Str
  | [] => [[]]
  | c :: r =>
      match splitC sep r with
      | [] => [[c]]
      | h :: t => if c = sep then [] :: h :: t else (c :: h) :: t

/-- Parse the US format M/D/YYYY, with range checks. -/
def parseDateUS (s : Str) : Option (ℕ × ℕ × ℕ) :=
  match splitC '/' s with
  | [ms, ds, ys] =>
      if ms ≠ [] ∧ ms.length ≤ 2 ∧ ms.all isDigitChar ∧
          ds ≠ [] ∧ ds.length ≤ 2 ∧ ds.all isDigitChar ∧
          ys.length = 4 ∧ ys.all isDigitChar then
        let m := digitsToNat ms
        let d := digitsToNat ds
        let y := digitsToNat ys
        if 1 ≤ m ∧ m ≤ 12 ∧ 1 ≤ d ∧ d ≤ 31 then some (y, m, d) else none
      else none
  | _ => none

/-- Modelled from the spec: the fixed priority order of accepted date
formats, tried in sequence, first match wins; the canonical format has
the highest priority. -/
def parseDateAny (s : Str) : Option (ℕ × ℕ × ℕ) :=
  match parseDateISO s with
  | some d => some d
  | none => parseDateUS s

/-! ## Type classification (spec section 4.3) -/

inductive CClass where
  | text
  | numeric
  | currency
  | date
deriving DecidableEq

/-- True when a cell is text matching the currency pattern. -/
def isCurrencyCell : Cell → Bool
  | .str s => (parseCurrency s).isSome
  | _ => false

/-- True when a cell is text matching an accepted date format. -/
def isDateCell : Cell → Bool
  | .str s => (parseDateAny s).isSome
  | _ => false

/-- True when a cell carries a plain numeric value. -/
def isNumericCell : Cell → Bool
  | .num _ => true
  | .str s => (parseNum s).isSome
  | .missing => false

/-- Modelled from the spec: per-column type classification.  Samples up
to the first 50 non-missing values; currency wins over date, date over
plain numeric; an all-missing column classifies as text. -/
def classifyCol (cells : List Cell) : CClass :=
  let sample := (cells.filter (fun c => !c.isMissing)).take 50
  if sample.length = 0 then .text
  else if 2 * sample.countP isCurrencyCell > sample.length then .currency
  else if 2 * sample.countP isDateCell > sample.length then .date
  else if 2 * sample.countP isNumericCell > sample.length then .numeric
  else .text

/-- The cells of column j, in row order (rows shorter than j contribute
nothing, so ragged rows are tolerated). -/
def colCells (j : ℕ) (rows : List Row) : List Cell :=
  rows.filterMap (fun r => r.get? j)

/-- Map a function of the column index over one row, starting at a given
index. -/
def mapIdxFrom (f : ℕ → Cell → Cell) : ℕ → Row → Row
  | _, [] => []
  | k, c :: r => f k c :: mapIdxFrom f (k + 1) r

/-- The largest row length, bounding the set of column indices. -/
def maxRowLen (rows : List Row) : ℕ :=
  rows.foldr (fun r m => max r.length m) 0

/-! ## Currency column cleaning (spec section 4.4) -/

/-- Convert one cell of a currency column; unparseable text degrades to
the missing marker, numeric and missing cells pass through. -/
def curCellConv : Cell → Cell
  | .str s =>
      match parseCurrency s with
      | some q => .num q
      | none => .missing
  | .num q => .num q
  | .missing => .missing

/-- Modelled from the spec: the currency column cleaner, applied to
every column that classifies as currency. -/
def currencyStageRows (rows : List Row) : List Row :=
  rows.map (fun r =>
    mapIdxFrom
      (fun j c =>
        if classifyCol (colCells j rows) = CClass.currency then curCellConv c
        else c)
      0 r)

/-- Log of the currency stage: one entry per converted column, carrying
the count of unparseable cells degraded to missing. -/
def currencyStageLog (rows : List Row) : List LogEntry :=
  (List.range (maxRowLen rows)).filterMap (fun j =>
    if classifyCol (colCells j rows) = CClass.currency then
      some (.currencyConverted j
        ((colCells j rows).countP (fun c =>
          match c with
          | .str s => (parseCurrency s).isNone
          | _ => false)))
    else none)

/-! ## Date normalization (spec section 4.5) -/

/-- Convert one cell of a date column to the canonical format;
unparseable text degrades to the missing marker. -/
def dateCellConv : Cell → Cell
  | .str s =>
      match parseDateAny s with
      | some d => .str (fmtDate d)
      | none => .missing
  | .num q => .num q
  | .missing => .missing

/-- Modelled from the spec: the date normalizer, applied to every column
that classifies as date. -/
def dateStageRows (rows : List Row) : List Row :=
  rows.map (fun r =>
    mapIdxFrom
      (fun j c =>
        if classifyCol (colCells j rows) = CClass.date then dateCellConv c
        else c)
      0 r)

/-- Log of the date stage: a per-column summary, emitted only when the
column actually changed. -/
def dateStageLog (rows : List Row) : List LogEntry :=
  (List.range (maxRowLen rows)).filterMap (fun j =>
    if classifyCol (colCells j rows) = CClass.date ∧
        0 < (colCells j rows).countP (fun c => !(dateCellConv c == c)) then
      some (.datesNormalized j
        ((colCells j rows).countP (fun c => !(dateCellConv c == c))))
    else none)

/-! ## Missing value handling (spec section 4.6) -/

inductive Strategy where
  | ignore
  | unknown
  | average
  | mode
deriving DecidableEq

/-- True for the numeric class axis (plain numeric and currency). -/
def numericClassB (cl : CClass) : Bool :=
  cl = CClass.numeric || cl = CClass.currency

/-- Numeric value carried by a cell, if any. -/
def numericValOf : Cell → Option ℚ
  | .num q => some q
  | .str s => parseNum s
  | .missing => none

/-- Arithmetic mean of the numeric values of a column, when at least one
exists. -/
def colMean (cells : List Cell) : Option Cell :=
  let vs := cells.filterMap numericValOf
  if vs.length = 0 then none
  else some (.num (vs.foldr (fun a b => a + b) 0 / (vs.length : ℚ)))

/-- Non-missing cells of a column. -/
def nonMissingCells (cells : List Cell) : List Cell :=
  cells.filter (fun c => !c.isMissing)

/-- Most frequent non-missing value, ties broken by first occurrence in
row order. -/
def colModeFill (cells : List Cell) : Option Cell :=
  match dedupAux [] (nonMissingCells cells) with
  | [] => none
  | c :: cs =>
      some (cs.foldl
        (fun best v =>
          if (nonMissingCells cells).count v >
              (nonMissingCells cells).count best then v else best)
        c)

/-- The text filled in by the unknown strategy. -/
def unknownText : Str := ['U', 'n', 'k', 'n', 'o', 'w', 'n']

/-- Modelled from the spec: the fill value for one column.  Numeric-class
columns honour the numeric strategy (average; unknown is treated as
ignore since no numeric sentinel is defined, the decision the spec asks
to make explicit); other columns honour the non-numeric strategy. -/
def fillValFor (cells : List Cell) (cl : CClass) (s1 s2 : Strategy) : Option Cell :=
  if numericClassB cl then
    match s1 with
    | .average => colMean cells
    | _ => none
  else
    match s2 with
    | .unknown => some (.str unknownText)
    | .mode => colModeFill cells
    | _ => none

/-- Modelled from the spec: the missing value handler. -/
def fillStageRows (s1 s2 : Strategy) (rows : List Row) : List Row :=
  rows.map (fun r =>
    mapIdxFrom
      (fun j c =>
        if c.isMissing then
          (fillValFor (colCells j rows) (classifyCol (colCells j rows)) s1 s2).getD c
        else c)
      0 r)

/-- Log of the fill stage: one entry per column in which cells were
actually filled. -/
def fillStageLog (s1 s2 : Strategy) (rows : List Row) : List LogEntry :=
  (List.range (maxRowLen rows)).filterMap (fun j =>
    if (fillValFor (colCells j rows) (classifyCol (colCells j rows)) s1 s2).isSome ∧
        0 < (colCells j rows).countP Cell.isMissing then
      some (.filled j ((colCells j rows).countP Cell.isMissing))
    else none)

/-! ## The cleaning pipeline -/

/-- Modelled from the spec: clean_data of the cleaner module (not in the
source snapshot).  Stage order per the spec: column name standardizer,
whitespace and row normalizer (trim, drop empty rows, deduplicate), then
currency cleaner, date normalizer and missing value handler, with the
log threaded through every stage. -/
def clean (t : Table) (s1 s2 : Strategy) : Table × List LogEntry :=
  let hp := standardizeHeaders t.headers
  let r1 := t.rows.map (fun r => r.map trimCell)
  let r2 := r1.filter (fun r => !rowEmpty r)
  let dropLog : List LogEntry :=
    if r2.length < r1.length then [.droppedRows (r1.length - r2.length)] else []
  let r3 := dedupAux [] r2
  let dedupLog : List LogEntry :=
    if r3.length < r2.length then [.dedupedRows (r2.length - r3.length)] else []
  let r4 := currencyStageRows r3
  let r5 := dateStageRows r4
  let r6 := fillStageRows s1 s2 r5
  (⟨hp.1, r6⟩,
    hp.2 ++ dropLog ++ dedupLog ++ currencyStageLog r3 ++ dateStageLog r4 ++
      fillStageLog s1 s2 r5)

/-- Invariant of cells after the whitespace stage: every text cell is
already trimmed and nonempty. -/
def StrOk (c : Cell) : Prop :=
  ∀ s, c = Cell.str s → trimStr s = s ∧ s ≠ []

/-- All cells of all rows satisfy StrOk. -/
def RowsOk (rows : List Row) : Prop :=
  ∀ r ∈ rows, ∀ c ∈ r, StrOk c

/-! ## The app-side upload checks (app.py) -/

inductive AppError where
  | capacity
  | tooFewRows
deriving DecidableEq

/-- The caller-side gate of app.py around clean_data: reject tables with
more than 100000 rows, then reject empty data (pandas df.empty is true
when there are no rows or no columns, and at least one data row is
required), and only then invoke the cleaning pipeline. -/
def processUpload (t : Table) (s1 s2 : Strategy) :
    Except AppError (Table × List LogEntry) :=
  if 100000 < t.rows.length then .error .capacity
  else if t.rows.length = 0 ∨ t.headers.length = 0 ∨ t.rows.length < 1 then
    .error .tooFewRows
  else .ok (clean t s1 s2)

/-- The header-less branch of the CSV reader in app.py: synthesized
column names column_0, column_1, ... for each column index. -/
def synthColumnNames (n : ℕ) : List Str :=
  (List.range n).map (fun i => ['c', 'o', 'l', 'u', 'm', 'n', '_'] ++ natRepr i)

/-! ## Usage tracking sheet (google_sheets.py) -/

/-- A value written into one sheet cell: the dictionary in app.py holds
strings, an integer row count and a float charge. -/
inductive SheetVal where
  | s : Str → SheetVal
  | i : ℤ → SheetVal
  | q : ℚ → SheetVal
deriving DecidableEq

/-- A log entry dictionary handed to append_log_to_sheet; every key is
optional, mirroring dict.get with a default. -/
structure UsageEntry where
  timestamp : Option Str
  email : Option Str
  filename : Option Str
  row_count : Option ℤ
  charged : Option ℚ

/-- The fixed-order row built by append_log_to_sheet, each field
defaulting to the empty string when absent. -/
def usageRow (e : UsageEntry) : List SheetVal :=
  [(e.timestamp.map SheetVal.s).getD (.s []),
   (e.email.map SheetVal.s).getD (.s []),
   (e.filename.map SheetVal.s).getD (.s []),
   (e.row_count.map SheetVal.i).getD (.s []),
   (e.charged.map SheetVal.q).getD (.s [])]

/-- append_log_to_sheet: appends exactly the one row built from the
entry after the existing rows of the sheet. -/
def append_log_to_sheet (sheet : List (List SheetVal)) (e : UsageEntry) :
    List (List SheetVal) :=
  sheet ++ [usageRow e]

/-! # Supporting lemmas -/

/-! ## Pricing -/

theorem costMilsAux_mono (l : List (ℕ × ℕ)) :
    ∀ prev m n, m ≤ n → costMilsAux prev l m ≤ costMilsAux prev l n := by
  induction l with
  | nil => intro prev m n _; simp [costMilsAux]
  | cons p rest ih =>
      intro prev m n h
      obtain ⟨ub, rate⟩ := p
      simp only [costMilsAux]
      have h1 : min m ub - prev ≤ min n ub - prev := by omega
      exact Nat.add_le_add (Nat.mul_le_mul_left rate h1) (ih ub m n h)

theorem priceCostMils_free (n : ℕ) (h : n ≤ 100) : priceCostMils n = 0 := by
  simp only [priceCostMils, tierTable, costMilsAux]
  omega

theorem priceCost_free (n : ℕ) (h : n ≤ 100) : priceCost n = 0 := by
  rw [priceCost, priceCostMils_free n h]
  norm_num

/-! ## Decimal rendering -/

theorem digitsRevFuel_val : ∀ f n, n < f → digitsVal (digitsRevFuel f n) = n := by
  intro f
  induction f with
  | zero => intro n h; omega
  | succ f ih =>
      intro n h
      unfold digitsRevFuel
      by_cases h10 : n < 10
      · simp [h10, digitsVal]
      · have hd : n / 10 < f := by
          have : n / 10 < n := Nat.div_lt_self (by omega) (by omega)
          omega
        simp only [h10, if_false, digitsVal]
        rw [ih _ hd]
        omega

theorem digitsRevFuel_lt : ∀ f n d, d ∈ digitsRevFuel f n → d < 10 := by
  intro f
  induction f with
  | zero => intro n d h; simp [digitsRevFuel] at h
  | succ f ih =>
      intro n d h
      unfold digitsRevFuel at h
      by_cases h10 : n < 10
      · simp [h10] at h; omega
      · simp [h10] at h
        rcases h with h | h
        · omega
        · exact ih _ _ h

theorem digitChar_inj_lt :
    ∀ d, d < 10 → ∀ e, e < 10 → Nat.digitChar d = Nat.digitChar e → d = e := by
  decide

theorem map_digitChar_inj :
    ∀ l1 l2 : List ℕ, (∀ d ∈ l1, d < 10) → (∀ d ∈ l2, d < 10) →
      l1.map Nat.digitChar = l2.map Nat.digitChar → l1 = l2 := by
  intro l1
  induction l1 with
  | nil => intro l2 _ _ h; cases l2 <;> simp_all
  | cons a t ih =>
      intro l2 h1 h2 h
      cases l2 with
      | nil => simp at h
      | cons b t2 =>
          simp only [List.map_cons, List.cons.injEq] at h
          have ha : a = b :=
            digitChar_inj_lt a (h1 a (by simp)) b (h2 b (by simp)) h.1
          subst ha
          have := ih t2 (fun d hd => h1 d (by simp [hd]))
            (fun d hd => h2 d (by simp [hd])) h.2
          simp [this]

theorem natRepr_injective : ∀ a b : ℕ, natRepr a = natRepr b → a = b := by
  intro a b h
  unfold natRepr at h
  have h1 : (digitsRevFuel (a + 1) a).reverse = (digitsRevFuel (b + 1) b).reverse :=
    map_digitChar_inj _ _
      (fun d hd => digitsRevFuel_lt _ _ _ (List.mem_reverse.mp hd))
      (fun d hd => digitsRevFuel_lt _ _ _ (List.mem_reverse.mp hd)) h
  have h2 : digitsRevFuel (a + 1) a = digitsRevFuel (b + 1) b :=
    List.reverse_injective h1
  have := digitsRevFuel_val (a + 1) a (by omega)
  rw [h2, digitsRevFuel_val (b + 1) b (by omega)] at this
  omega

theorem digitsRevFuel_ne_nil (n : ℕ) : digitsRevFuel (n + 1) n ≠ [] := by
  unfold digitsRevFuel
  by_cases h : n < 10 <;> simp [h]

theorem natRepr_ne_nil (n : ℕ) : natRepr n ≠ [] := by
  unfold natRepr
  simp [digitsRevFuel_ne_nil]

theorem natRepr_digits (n : ℕ) : ∀ c ∈ natRepr n, isDigitChar c = true := by
  intro c hc
  unfold natRepr at hc
  simp only [List.mem_map, List.mem_reverse] at hc
  obtain ⟨d, hd, rfl⟩ := hc
  have h10 := digitsRevFuel_lt _ _ _ hd
  exact (by decide : ∀ d, d < 10 → isDigitChar (Nat.digitChar d) = true) d h10

theorem keepChar_of_digit (c : Char) (h : isDigitChar c = true) :
    keepChar c = true := by
  simp only [isDigitChar, Bool.and_eq_true, decide_eq_true_eq] at h
  simp only [keepChar, Bool.or_eq_true, Bool.and_eq_true, decide_eq_true_eq]
  omega

/-! ## Renaming and uniquification -/

theorem rename_not_mem (used : List Str) (nm : Str) : rename used nm ∉ used := by
  unfold rename
  by_cases h : nm ∈ used
  · simp only [h, if_true]
    cases hf : (List.range (used.length + 1)).find?
        (fun i => decide ((nm ++ '_' :: natRepr (i + 2)) ∉ used)) with
    | some i =>
        have hp := List.find?_some hf
        simpa using hp
    | none =>
        exfalso
        have hall : ∀ i, i < used.length + 1 →
            (nm ++ '_' :: natRepr (i + 2)) ∈ used := by
          intro i hi
          have := List.find?_eq_none.mp hf i (List.mem_range.mpr hi)
          simpa using this
        have hinj : Function.Injective
            (fun i : ℕ => nm ++ '_' :: natRepr (i + 2)) := by
          intro a b hab
          simp only [List.append_cancel_left_eq, List.cons.injEq, true_and] at hab
          have := natRepr_injective _ _ hab
          omega
        have hnd : ((List.range (used.length + 1)).map
            (fun i : ℕ => nm ++ '_' :: natRepr (i + 2))).Nodup :=
          (List.nodup_range _).map hinj
        have hsub : ((List.range (used.length + 1)).map
            (fun i : ℕ => nm ++ '_' :: natRepr (i + 2))).toFinset ⊆ used.toFinset := by
          intro x hx
          simp only [List.mem_toFinset, List.mem_map, List.mem_range] at hx
          obtain ⟨i, hi, rfl⟩ := hx
          exact List.mem_toFinset.mpr (hall i hi)
        have hc1 : ((List.range (used.length + 1)).map
            (fun i : ℕ => nm ++ '_' :: natRepr (i + 2))).toFinset.card =
            used.length + 1 := by
          rw [List.toFinset_card_of_nodup hnd, List.length_map, List.length_range]
        have hc2 := Finset.card_le_card hsub
        have hc3 := List.toFinset_card_le used
        omega
  · simp [h]

theorem rename_of_not_mem (used : List Str) (nm : Str) (h : nm ∉ used) :
    rename used nm = nm := by
  simp [rename, h]

theorem uniqAux_nodup : ∀ (l used : List Str),
    (uniqAux used l).Nodup ∧ ∀ x ∈ uniqAux used l, x ∉ used := by
  intro l
  induction l with
  | nil => intro used; simp [uniqAux]
  | cons nm rest ih =>
      intro used
      obtain ⟨ihn, ihm⟩ := ih (used ++ [rename used nm])
      constructor
      · refine List.nodup_cons.mpr ⟨?_, ihn⟩
        intro hmem
        have := ihm _ hmem
        simp at this
      · intro x hx
        simp only [uniqAux, List.mem_cons] at hx
        rcases hx with rfl | hx
        · exact rename_not_mem used nm
        · have := ihm x hx
          intro hc
          exact this (by simp [hc])

theorem uniqAux_eq_self : ∀ (l used : List Str), l.Nodup →
    (∀ x ∈ l, x ∉ used) → uniqAux used l = l := by
  intro l
  induction l with
  | nil => intro used _ _; simp [uniqAux]
  | cons nm rest ih =>
      intro used hnd hu
      have h1 : rename used nm = nm := rename_of_not_mem _ _ (hu nm (by simp))
      simp only [uniqAux, h1, List.cons.injEq, true_and]
      apply ih
      · exact (List.nodup_cons.mp hnd).2
      · intro x hx
        simp only [List.mem_append, List.mem_singleton]
        push_neg
        refine ⟨hu x (by simp [hx]), ?_⟩
        intro hc
        subst hc
        exact (List.nodup_cons.mp hnd).1 hx

theorem uniqAux_provenance : ∀ (l used : List Str), ∀ x ∈ uniqAux used l,
    ∃ nm ∈ l, x = nm ∨ ∃ k, x = nm ++ '_' :: natRepr k := by
  intro l
  induction l with
  | nil => intro used x hx; simp [uniqAux] at hx
  | cons nm rest ih =>
      intro used x hx
      simp only [uniqAux, List.mem_cons] at hx
      rcases hx with rfl | hx
      · refine ⟨nm, by simp, ?_⟩
        unfold rename
        by_cases h : nm ∈ used
        · simp only [h, if_true]
          cases (List.range (used.length + 1)).find?
              (fun i => decide ((nm ++ '_' :: natRepr (i + 2)) ∉ used)) with
          | some i => exact Or.inr ⟨i + 2, rfl⟩
          | none => exact Or.inl rfl
        · simp [h]
      · obtain ⟨nm2, hm, hc⟩ := ih _ x hx
        exact ⟨nm2, by simp [hm], hc⟩

/-! ## Trimming -/

theorem rstripWs_cons (c : Char) (rest : Str) :
    rstripWs (c :: rest) =
      if rstripWs rest = [] ∧ isWsChar c then [] else c :: rstripWs rest := rfl

theorem head_dropWhile {p : Char → Bool} :
    ∀ l : Str, ∀ c, (l.dropWhile p).head? = some c → p c = false := by
  intro l
  induction l with
  | nil => intro c h; simp [List.dropWhile] at h
  | cons a t ih =>
      intro c h
      by_cases hp : p a
      · rw [List.dropWhile_cons_of_pos hp] at h
        exact ih c h
      · rw [List.dropWhile_cons_of_neg hp] at h
        simp only [List.head?_cons, Option.some.injEq] at h
        subst h
        simpa using hp

theorem dropWhile_of_head {p : Char → Bool} (l : Str)
    (h : ∀ c, l.head? = some c → p c = false) : l.dropWhile p = l := by
  cases l with
  | nil => rfl
  | cons a t => exact List.dropWhile_cons_of_neg (by simp [h a rfl])

theorem rstripWs_idem : ∀ l : Str, rstripWs (rstripWs l) = rstripWs l := by
  intro l
  induction l with
  | nil => rfl
  | cons c rest ih =>
      rw [rstripWs_cons]
      by_cases h : rstripWs rest = [] ∧ isWsChar c
      · simp [h, rstripWs]
      · rw [if_neg h, rstripWs_cons, ih, if_neg h]

theorem rstripWs_head : ∀ l : Str, rstripWs l ≠ [] →
    (rstripWs l).head? = l.head? := by
  intro l h
  cases l with
  | nil => rfl
  | cons c rest =>
      rw [rstripWs_cons] at h ⊢
      by_cases hc : rstripWs rest = [] ∧ isWsChar c
      · simp [hc] at h
      · simp [hc]

theorem trimStr_idem (l : Str) : trimStr (trimStr l) = trimStr l := by
  unfold trimStr
  rw [dropWhile_of_head, rstripWs_idem]
  intro c hc
  by_cases hn : rstripWs (l.dropWhile isWsChar) = []
  · simp [hn] at hc
  · rw [rstripWs_head _ hn] at hc
    exact head_dropWhile l c hc

theorem rstripWs_of_all (l : Str) (h : ∀ c ∈ l, isWsChar c = false) :
    rstripWs l = l := by
  induction l with
  | nil => rfl
  | cons c rest ih =>
      rw [rstripWs_cons, ih (fun d hd => h d (by simp [hd]))]
      simp [h c (by simp)]

theorem trimStr_of_all (l : Str) (h : ∀ c ∈ l, isWsChar c = false) :
    trimStr l = l := by
  unfold trimStr
  rw [dropWhile_of_head, rstripWs_of_all l h]
  intro c hc
  cases l with
  | nil => simp at hc
  | cons a t =>
      simp only [List.head?_cons, Option.some.injEq] at hc
      subst hc
      exact h a (by simp)

/-! ## Shape of normalized names -/

theorem keepChar_underscore : keepChar '_' = false := by decide

theorem rstripU_cons (c : Char) (rest : Str) :
    rstripU (c :: rest) =
      if rstripU rest = [] ∧ c = '_' then [] else c :: rstripU rest := rfl

theorem collapseAux_cons (b : Bool) (c : Char) (rest : Str) :
    collapseAux b (c :: rest) =
      if keepChar c then c :: collapseAux false rest
      else if b then collapseAux true rest
      else '_' :: collapseAux true rest := rfl

theorem goodAux_cons_iff (c : Char) (rest : Str) :
    goodAux (c :: rest) = true ↔
      (keepChar c = true ∨ (c = '_' ∧ headKeep rest = true)) ∧
        goodAux rest = true := by
  simp [goodAux, Bool.and_eq_true, Bool.or_eq_true, decide_eq_true_eq]

theorem goodAux_getLast : ∀ l : Str, goodAux l = true →
    ∀ c, l.getLast? = some c → keepChar c = true := by
  intro l
  induction l with
  | nil => intro _ c h; simp at h
  | cons a t ih =>
      intro hg c hl
      cases t with
      | nil =>
          simp only [List.getLast?_singleton, Option.some.injEq] at hl
          subst hl
          rcases (goodAux_cons_iff a []).mp hg with ⟨h1, _⟩
          rcases h1 with h1 | ⟨_, h2⟩
          · exact h1
          · simp [headKeep] at h2
      | cons b t2 =>
          rw [List.getLast?_cons_cons] at hl
          exact ih ((goodAux_cons_iff a _).mp hg).2 c hl

theorem goodAux_rstripU : ∀ l : Str, goodAux l = true → rstripU l = l := by
  intro l
  induction l with
  | nil => intro _; rfl
  | cons c rest ih =>
      intro h
      rcases (goodAux_cons_iff c rest).mp h with ⟨h1, h2⟩
      rw [rstripU_cons, ih h2]
      cases rest with
      | nil =>
          have hc : c ≠ '_' := by
            intro hcc
            subst hcc
            rcases h1 with h1 | ⟨_, h3⟩
            · rw [keepChar_underscore] at h1; exact absurd h1 (by simp)
            · simp [headKeep] at h3
          simp [hc]
      | cons b t2 => simp

theorem goodAux_chars : ∀ l : Str, goodAux l = true →
    ∀ c ∈ l, keepChar c = true ∨ c = '_' := by
  intro l
  induction l with
  | nil => intro _ c h; simp at h
  | cons a t ih =>
      intro hg c hc
      rcases (goodAux_cons_iff a t).mp hg with ⟨h1, h2⟩
      simp only [List.mem_cons] at hc
      rcases hc with rfl | hc
      · rcases h1 with h1 | ⟨h1, _⟩
        · exact Or.inl h1
        · exact Or.inr h1
      · exact ih h2 c hc

theorem lowerChar_fix (c : Char) (h : keepChar c = true ∨ c = '_') :
    lowerChar c = c := by
  rcases h with h | rfl
  · unfold lowerChar
    rw [if_neg]
    simp only [keepChar, Bool.or_eq_true, Bool.and_eq_true, decide_eq_true_eq] at h
    omega
  · decide

theorem collapseAux_fix : ∀ l : Str, goodAux l = true →
    collapseAux false l = l ∧
      (headKeep l = true → collapseAux true l = l) := by
  intro l
  induction l with
  | nil => intro _; simp [collapseAux]
  | cons c rest ih =>
      intro hg
      rcases (goodAux_cons_iff c rest).mp hg with ⟨h1, h2⟩
      obtain ⟨ihf, iht⟩ := ih h2
      rcases h1 with hk | ⟨hcu, hh⟩
      · constructor
        · rw [collapseAux_cons, if_pos hk, ihf]
        · intro _
          rw [collapseAux_cons, if_pos hk, ihf]
      · subst hcu
        constructor
        · rw [collapseAux_cons, if_neg (by simp [keepChar_underscore])]
          simp only [Bool.false_eq_true, if_false]
          rw [iht hh]
        · intro hhk
          simp [headKeep, keepChar_underscore] at hhk

theorem good_head_keep (c : Char) (rest : Str)
    (h : good (c :: rest) = true) :
    keepChar c = true ∧ goodAux (c :: rest) = true := by
  simpa [good, Bool.and_eq_true] using h

theorem good_fix (l : Str) (h : good l = true) : normalizeName l = l := by
  cases l with
  | nil => rfl
  | cons c rest =>
      obtain ⟨hk, hg⟩ := good_head_keep c rest h
      unfold normalizeName
      have hmap : (c :: rest).map lowerChar = c :: rest := by
        refine (List.map_congr_left ?_).trans (List.map_id _)
        intro a ha
        exact lowerChar_fix a (goodAux_chars _ hg a ha)
      rw [hmap, (collapseAux_fix _ hg).2 (by simp [headKeep, hk]),
        goodAux_rstripU _ hg]

theorem collapseAux_head_keep : ∀ l : Str, ∀ c,
    (collapseAux true l).head? = some c → keepChar c = true := by
  intro l
  induction l with
  | nil => intro c h; simp [collapseAux] at h
  | cons a t ih =>
      intro c h
      rw [collapseAux_cons] at h
      by_cases hk : keepChar a
      · simp only [hk, if_true, List.head?_cons, Option.some.injEq] at h
        subst h
        exact hk
      · simp only [hk, Bool.false_eq_true, if_false, if_true] at h
        exact ih c h

theorem rstripU_head : ∀ l : Str, rstripU l ≠ [] →
    (rstripU l).head? = l.head? := by
  intro l h
  cases l with
  | nil => rfl
  | cons c rest =>
      rw [rstripU_cons] at h ⊢
      by_cases hc : rstripU rest = [] ∧ c = '_'
      · simp [hc] at h
      · simp [hc]

theorem goodAux_rstripU_collapse : ∀ (l : Str) (b : Bool),
    goodAux (rstripU (collapseAux b l)) = true := by
  intro l
  induction l with
  | nil => intro b; simp [collapseAux, rstripU, goodAux]
  | cons c rest ih =>
      intro b
      rw [collapseAux_cons]
      by_cases hk : keepChar c
      · rw [if_pos hk, rstripU_cons]
        have hcu : c ≠ '_' := by
          intro hcc
          rw [hcc, keepChar_underscore] at hk
          exact absurd hk (by simp)
        rw [if_neg (by simp [hcu])]
        exact (goodAux_cons_iff c _).mpr ⟨Or.inl hk, ih false⟩
      · rw [if_neg hk]
        cases b with
        | true => simpa using ih true
        | false =>
            simp only [Bool.false_eq_true, if_false]
            rw [rstripU_cons]
            by_cases hz : rstripU (collapseAux true rest) = []
            · rw [if_pos ⟨hz, rfl⟩]; rfl
            · rw [if_neg (by simp [hz])]
              refine (goodAux_cons_iff _ _).mpr ⟨Or.inr ⟨rfl, ?_⟩, ih true⟩
              cases hrr : rstripU (collapseAux true rest) with
              | nil => exact absurd hrr hz
              | cons x xs =>
                  have hd : (collapseAux true rest).head? = some x := by
                    rw [← rstripU_head _ hz, hrr]
                    rfl
                  simpa [headKeep] using collapseAux_head_keep rest x hd

theorem good_normalizeName (s : Str) : good (normalizeName s) = true := by
  unfold normalizeName
  cases hrr : rstripU (collapseAux true (s.map lowerChar)) with
  | nil => rfl
  | cons c rest =>
      have hg := goodAux_rstripU_collapse (s.map lowerChar) true
      rw [hrr] at hg
      have hz : rstripU (collapseAux true (s.map lowerChar)) ≠ [] := by
        simp [hrr]
      have hd : (collapseAux true (s.map lowerChar)).head? = some c := by
        rw [← rstripU_head _ hz, hrr]
        rfl
      have hk := collapseAux_head_keep (s.map lowerChar) c hd
      simp [good, hk, hg]

theorem normalizeName_idem (s : Str) :
    normalizeName (normalizeName s) = normalizeName s :=
  good_fix _ (good_normalizeName s)

theorem goodAux_of_all_keep : ∀ l : Str, (∀ c ∈ l, keepChar c = true) →
    goodAux l = true := by
  intro l
  induction l with
  | nil => intro _; rfl
  | cons c rest ih =>
      intro h
      exact (goodAux_cons_iff c rest).mpr
        ⟨Or.inl (h c (by simp)), ih (fun d hd => h d (by simp [hd]))⟩

theorem goodAux_append_suffix (ds : Str) (hds : ds ≠ [])
    (hdk : ∀ c ∈ ds, keepChar c = true) :
    ∀ a : Str, goodAux a = true →
      (∀ c, a.getLast? = some c → keepChar c = true) →
      goodAux (a ++ '_' :: ds) = true := by
  have base : goodAux ('_' :: ds) = true := by
    refine (goodAux_cons_iff _ _).mpr ⟨Or.inr ⟨rfl, ?_⟩, goodAux_of_all_keep _ hdk⟩
    cases ds with
    | nil => exact absurd rfl hds
    | cons e t => simpa [headKeep] using hdk e (by simp)
  intro a
  induction a with
  | nil => intro _ _; simpa using base
  | cons c rest ih =>
      intro hg hl
      rcases (goodAux_cons_iff c rest).mp hg with ⟨h1, h2⟩
      cases rest with
      | nil =>
          have hk : keepChar c = true := hl c (by simp)
          simp only [List.cons_append, List.nil_append]
          exact (goodAux_cons_iff _ _).mpr ⟨Or.inl hk, base⟩
      | cons b t2 =>
          have hl2 : ∀ d, (b :: t2).getLast? = some d → keepChar d = true := by
            intro d hd
            apply hl
            rw [List.getLast?_cons_cons]
            exact hd
          have ihr := ih h2 hl2
          simp only [List.cons_append] at ihr ⊢
          refine (goodAux_cons_iff _ _).mpr ⟨?_, ihr⟩
          rcases h1 with h1 | ⟨h1, h3⟩
          · exact Or.inl h1
          · exact Or.inr ⟨h1, by simpa [headKeep] using h3⟩

theorem good_append_suffix (a : Str) (ha : good a = true) (hne : a ≠ [])
    (ds : Str) (hds : ds ≠ []) (hdk : ∀ c ∈ ds, keepChar c = true) :
    good (a ++ '_' :: ds) = true := by
  cases a with
  | nil => exact absurd rfl hne
  | cons c rest =>
      obtain ⟨hk, hg⟩ := good_head_keep c rest ha
      have hgg : goodAux ((c :: rest) ++ '_' :: ds) = true :=
        goodAux_append_suffix ds hds hdk _ hg (goodAux_getLast _ hg)
      simp only [List.cons_append] at hgg ⊢
      simp [good, hk, hgg]

theorem normalizeName_suffix_fix (h : Str) (k : ℕ)
    (hne : normalizeName h ≠ []) :
    normalizeName (normalizeName h ++ '_' :: natRepr k) =
      normalizeName h ++ '_' :: natRepr k := by
  apply good_fix
  apply good_append_suffix _ (good_normalizeName h) hne _ (natRepr_ne_nil k)
  intro c hc
  exact keepChar_of_digit c (natRepr_digits k c hc)

/-! ## Per-index mapping over rows -/

theorem mapIdxFrom_get? (f : ℕ → Cell → Cell) :
    ∀ (l : Row) (k j : ℕ),
      (mapIdxFrom f k l).get? j = (l.get? j).map (fun c => f (k + j) c) := by
  intro l
  induction l with
  | nil => intro k j; simp [mapIdxFrom]
  | cons c r ih =>
      intro k j
      cases j with
      | zero => simp [mapIdxFrom]
      | succ j =>
          simp only [mapIdxFrom, List.get?_cons_succ]
          rw [ih (k + 1) j]
          have : k + 1 + j = k + (j + 1) := by omega
          rw [this]

theorem mapIdxFrom_eq_self (f : ℕ → Cell → Cell) :
    ∀ (l : Row) (k : ℕ),
      (∀ j c, l.get? j = some c → f (k + j) c = c) → mapIdxFrom f k l = l := by
  intro l
  induction l with
  | nil => intro k _; rfl
  | cons c r ih =>
      intro k h
      have h0 : f k c = c := by
        have := h 0 c (by simp)
        simpa using this
      simp only [mapIdxFrom, h0, List.cons.injEq, true_and]
      apply ih (k + 1)
      intro j d hd
      have := h (j + 1) d (by simpa using hd)
      have he : k + (j + 1) = k + 1 + j := by omega
      rw [he] at this
      exact this

theorem mapIdxFrom_mem (f : ℕ → Cell → Cell) :
    ∀ (l : Row) (k : ℕ) (x : Cell), x ∈ mapIdxFrom f k l →
      ∃ c ∈ l, ∃ j, x = f j c := by
  intro l
  induction l with
  | nil => intro k x h; simp [mapIdxFrom] at h
  | cons c r ih =>
      intro k x h
      simp only [mapIdxFrom, List.mem_cons] at h
      rcases h with rfl | h
      · exact ⟨c, by simp, k, rfl⟩
      · obtain ⟨d, hd, j, rfl⟩ := ih (k + 1) _ h
        exact ⟨d, by simp [hd], j, rfl⟩

theorem mem_colCells (j : ℕ) (rows : List Row) (r : Row) (c : Cell)
    (hr : r ∈ rows) (hc : r.get? j = some c) : c ∈ colCells j rows := by
  unfold colCells
  exact List.mem_filterMap.mpr ⟨r, hr, hc⟩

theorem stageRows_eq_self (f : ℕ → Cell → Cell) (rows : List Row)
    (h : ∀ j c, c ∈ colCells j rows → f j c = c) :
    rows.map (fun r => mapIdxFrom f 0 r) = rows := by
  refine (List.map_congr_left ?_).trans (List.map_id _)
  intro r hr
  apply mapIdxFrom_eq_self
  intro j c hc
  have := h j c (mem_colCells j rows r c hr hc)
  simpa using this

theorem colCells_stage (f : ℕ → Cell → Cell) (j : ℕ) (rows : List Row) :
    colCells j (rows.map (fun r => mapIdxFrom f 0 r)) =
      (colCells j rows).map (fun c => f j c) := by
  unfold colCells
  rw [List.filterMap_map]
  have h1 : ∀ r : Row, ((fun r => r.get? j) ∘ fun r => mapIdxFrom f 0 r) r =
      (r.get? j).map (fun c => f j c) := by
    intro r
    simp only [Function.comp_apply]
    rw [mapIdxFrom_get?]
    simp
  rw [List.filterMap_congr (fun r _ => h1 r), ← List.map_filterMap]

/-! ## Deduplication -/

theorem dedupAux_subset {α : Type} [DecidableEq α] :
    ∀ (l seen : List α), ∀ x ∈ dedupAux seen l, x ∈ l := by
  intro l
  induction l with
  | nil => intro seen x h; simp [dedupAux] at h
  | cons r rest ih =>
      intro seen x h
      unfold dedupAux at h
      by_cases hr : r ∈ seen
      · simp only [hr, if_true] at h
        exact List.mem_cons_of_mem _ (ih _ x h)
      · simp only [hr, if_false] at h
        rcases List.mem_cons.mp h with rfl | h
        · simp
        · exact List.mem_cons_of_mem _ (ih _ x h)

theorem dedupAux_length_le {α : Type} [DecidableEq α] :
    ∀ (l seen : List α), (dedupAux seen l).length ≤ l.length := by
  intro l
  induction l with
  | nil => intro seen; simp [dedupAux]
  | cons r rest ih =>
      intro seen
      unfold dedupAux
      by_cases hr : r ∈ seen
      · simp only [hr, if_true]
        exact Nat.le_succ_of_le (ih _)
      · simp only [hr, if_false, List.length_cons]
        exact Nat.succ_le_succ (ih _)

theorem dedupAux_eq_self {α : Type} [DecidableEq α] :
    ∀ (l seen : List α), l.Nodup → (∀ x ∈ l, x ∉ seen) →
      dedupAux seen l = l := by
  intro l
  induction l with
  | nil => intro seen _ _; rfl
  | cons r rest ih =>
      intro seen hnd hs
      unfold dedupAux
      rw [if_neg (hs r (by simp))]
      congr 1
      apply ih
      · exact (List.nodup_cons.mp hnd).2
      · intro x hx
        simp only [List.mem_cons]
        push_neg
        constructor
        · intro hc
          subst hc
          exact (List.nodup_cons.mp hnd).1 hx
        · exact hs x (by simp [hx])

/-! ## Digit character facts -/

theorem digitChar_isDigit : ∀ k, k < 10 → isDigitChar (Nat.digitChar k) = true := by
  decide

theorem digitChar_val : ∀ k, k < 10 → (Nat.digitChar k).toNat - 48 = k := by
  decide

theorem digitChar_not_special : ∀ k, k < 10 →
    Nat.digitChar k ≠ '(' ∧ Nat.digitChar k ≠ '$' ∧ Nat.digitChar k ≠ ',' ∧
      Nat.digitChar k ≠ '.' ∧ isWsChar (Nat.digitChar k) = false := by
  decide

theorem digitsToNat_lt : ∀ l : Str, (∀ c ∈ l, isDigitChar c = true) →
    digitsToNat l < 10 ^ l.length := by
  intro l
  induction l with
  | nil => intro _; simp [digitsToNat]
  | cons c r ih =>
      intro h
      have hc : c.toNat - 48 ≤ 9 := by
        have := h c (by simp)
        simp only [isDigitChar, Bool.and_eq_true, decide_eq_true_eq] at this
        omega
      have hr := ih (fun d hd => h d (by simp [hd]))
      simp only [digitsToNat, List.length_cons]
      calc (c.toNat - 48) * 10 ^ r.length + digitsToNat r
          < (c.toNat - 48) * 10 ^ r.length + 10 ^ r.length := by omega
        _ = (c.toNat - 48 + 1) * 10 ^ r.length := by ring
        _ ≤ 10 * 10 ^ r.length := by
            exact Nat.mul_le_mul_right _ (by omega)
        _ = 10 ^ (r.length + 1) := by ring

/-! ## Date format round trip -/

theorem digitsToNat_pad2 (n : ℕ) (h : n < 100) : digitsToNat (pad2 n) = n := by
  simp only [pad2, digitsToNat, List.length_cons, List.length_nil]
  rw [digitChar_val _ (by omega), digitChar_val _ (by omega)]
  simp only [pow_one, pow_zero]
  omega

theorem digitsToNat_pad4 (n : ℕ) (h : n < 10000) : digitsToNat (pad4 n) = n := by
  simp only [pad4, digitsToNat, List.length_cons, List.length_nil]
  rw [digitChar_val _ (by omega), digitChar_val _ (by omega),
    digitChar_val _ (by omega), digitChar_val _ (by omega)]
  ring_nf
  omega

/-- The valid range guaranteed for every parsed date. -/
def validDate : ℕ × ℕ × ℕ → Prop
  | (y, m, d) => y < 10000 ∧ 1 ≤ m ∧ m ≤ 12 ∧ 1 ≤ d ∧ d ≤ 31

theorem parseDateISO_valid (s : Str) (t : ℕ × ℕ × ℕ)
    (h : parseDateISO s = some t) : validDate t := by
  obtain ⟨y, m, d⟩ := t
  match s with
  | [y1, y2, y3, y4, h1, m1, m2, h2, d1, d2] =>
      simp only [parseDateISO] at h
      split_ifs at h with hc hr
      · obtain ⟨hy, hm, hd⟩ : digitsToNat [y1, y2, y3, y4] = y ∧
            digitsToNat [m1, m2] = m ∧ digitsToNat [d1, d2] = d := by
          simpa using h
        have hlt : digitsToNat [y1, y2, y3, y4] < 10 ^ 4 := by
          apply digitsToNat_lt
          intro c hc2
          have := hc.2.2.1
          simp only [List.all_eq_true] at this
          exact this c hc2
        refine ⟨by omega, ?_⟩
        rw [← hm, ← hd]
        exact ⟨hr.1, hr.2.1, hr.2.2.1, hr.2.2.2⟩
  | [] => simp [parseDateISO] at h
  | [a] => simp [parseDateISO] at h
  | [a, b] => simp [parseDateISO] at h
  | [a, b, c] => simp [parseDateISO] at h
  | [a, b, c, d2] => simp [parseDateISO] at h
  | [a, b, c, d2, e] => simp [parseDateISO] at h
  | [a, b, c, d2, e, f] => simp [parseDateISO] at h
  | [a, b, c, d2, e, f, g] => simp [parseDateISO] at h
  | [a, b, c, d2, e, f, g, i] => simp [parseDateISO] at h
  | [a, b, c, d2, e, f, g, i, j] => simp [parseDateISO] at h
  | a :: b :: c :: d2 :: e :: f :: g :: i :: j :: k :: x :: rest =>
      simp [parseDateISO] at h

theorem parseDateUS_valid (s : Str) (t : ℕ × ℕ × ℕ)
    (h : parseDateUS s = some t) : validDate t := by
  obtain ⟨y, m, d⟩ := t
  unfold parseDateUS at h
  match hsp : splitC '/' s with
  | [ms, ds, ys] =>
      simp only [hsp] at h
      split_ifs at h with hc hr
      · obtain ⟨h1, h2, h3⟩ : digitsToNat ys = y ∧ digitsToNat ms = m ∧
            digitsToNat ds = d := by simpa using h
        have hlt : digitsToNat ys < 10 ^ 4 := by
          rw [← hc.2.2.2.2.2.2.1]
          apply digitsToNat_lt
          intro c hc2
          have := hc.2.2.2.2.2.2.2
          simp only [List.all_eq_true] at this
          exact this c hc2
        refine ⟨by omega, ?_⟩
        rw [← h2, ← h3]
        exact ⟨hr.1, hr.2.1, hr.2.2.1, hr.2.2.2⟩
  | [] => simp [hsp] at h
  | [a] => simp [hsp] at h
  | [a, b] => simp [hsp] at h
  | a :: b :: c :: d2 :: rest => simp [hsp] at h

theorem parseDateAny_valid (s : Str) (t : ℕ × ℕ × ℕ)
    (h : parseDateAny s = some t) : validDate t := by
  unfold parseDateAny at h
  cases hi : parseDateISO s with
  | some u =>
      rw [hi] at h
      simp only [Option.some.injEq] at h
      subst h
      exact parseDateISO_valid s u hi
  | none =>
      rw [hi] at h
      exact parseDateUS_valid s t h

theorem parseDateISO_fmtDate (t : ℕ × ℕ × ℕ) (h : validDate t) :
    parseDateISO (fmtDate t) = some t := by
  obtain ⟨y, m, d⟩ := t
  obtain ⟨hy, hm1, hm2, hd1, hd2⟩ := h
  have hvy : digitsToNat [Nat.digitChar (y / 1000 % 10), Nat.digitChar (y / 100 % 10),
      Nat.digitChar (y / 10 % 10), Nat.digitChar (y % 10)] = y := by
    have e : [Nat.digitChar (y / 1000 % 10), Nat.digitChar (y / 100 % 10),
        Nat.digitChar (y / 10 % 10), Nat.digitChar (y % 10)] = pad4 y := rfl
    rw [e, digitsToNat_pad4 y hy]
  have hvm : digitsToNat [Nat.digitChar (m / 10 % 10), Nat.digitChar (m % 10)] = m := by
    have e : [Nat.digitChar (m / 10 % 10), Nat.digitChar (m % 10)] = pad2 m := rfl
    rw [e, digitsToNat_pad2 m (by omega)]
  have hvd : digitsToNat [Nat.digitChar (d / 10 % 10), Nat.digitChar (d % 10)] = d := by
    have e : [Nat.digitChar (d / 10 % 10), Nat.digitChar (d % 10)] = pad2 d := rfl
    rw [e, digitsToNat_pad2 d (by omega)]
  have e1 : fmtDate (y, m, d) =
      [Nat.digitChar (y / 1000 % 10), Nat.digitChar (y / 100 % 10),
       Nat.digitChar (y / 10 % 10), Nat.digitChar (y % 10), '-',
       Nat.digitChar (m / 10 % 10), Nat.digitChar (m % 10), '-',
       Nat.digitChar (d / 10 % 10), Nat.digitChar (d % 10)] := by
    simp [fmtDate, pad4, pad2]
  rw [e1]
  simp only [parseDateISO]
  split_ifs with hc1 hc2
  · simp only [Option.some.injEq]
    rw [hvy, hvm, hvd]
  · exfalso
    rw [hvm, hvd] at hc2
    exact hc2 ⟨hm1, hm2, hd1, hd2⟩
  · exfalso
    apply hc1
    refine ⟨by simp, by simp, ?_, ?_, ?_⟩ <;>
      simp only [List.all_eq_true] <;>
      intro c hcm <;>
      simp only [List.mem_cons, List.not_mem_nil, or_false] at hcm <;>
      first
        | (rcases hcm with rfl | rfl | rfl | rfl <;>
            exact digitChar_isDigit _ (by omega))
        | (rcases hcm with rfl | rfl <;>
            exact digitChar_isDigit _ (by omega))

theorem parseDateAny_fmtDate (t : ℕ × ℕ × ℕ) (h : validDate t) :
    parseDateAny (fmtDate t) = some t := by
  unfold parseDateAny
  rw [parseDateISO_fmtDate t h]

/-! ## Cell shape facts -/

theorem isCurrencyCell_of_not_str (c : Cell) (h : c.isStr = false) :
    isCurrencyCell c = false := by
  cases c <;> simp_all [Cell.isStr, isCurrencyCell]

theorem isDateCell_of_not_str (c : Cell) (h : c.isStr = false) :
    isDateCell c = false := by
  cases c <;> simp_all [Cell.isStr, isDateCell]

theorem curCellConv_not_str (c : Cell) : (curCellConv c).isStr = false := by
  cases c with
  | missing => rfl
  | num q => rfl
  | str s =>
      simp only [curCellConv]
      cases parseCurrency s <;> rfl

theorem dateCellConv_of_not_str (c : Cell) (h : c.isStr = false) :
    dateCellConv c = c := by
  cases c <;> simp_all [Cell.isStr, dateCellConv]

theorem trimCell_of_not_str (c : Cell) (h : c.isStr = false) :
    trimCell c = c := by
  cases c <;> simp_all [Cell.isStr, trimCell]

/-! ## Column classification facts -/

theorem sample_subset (cells : List Cell) :
    ∀ c ∈ (cells.filter (fun c => !c.isMissing)).take 50, c ∈ cells := by
  intro c hc
  exact List.filter_subset' _ (List.take_subset _ _ hc)

theorem classify_not_currency (cells : List Cell)
    (h : ∀ c ∈ cells, isCurrencyCell c = false) :
    classifyCol cells ≠ CClass.currency := by
  have hc : ((cells.filter (fun c => !c.isMissing)).take 50).countP isCurrencyCell = 0 := by
    rw [List.countP_eq_zero]
    intro a ha
    simp [h a (sample_subset cells a ha)]
  intro heq
  simp only [classifyCol] at heq
  rw [hc] at heq
  split_ifs at heq <;> simp_all

theorem classify_not_date (cells : List Cell)
    (h : ∀ c ∈ cells, isDateCell c = false) :
    classifyCol cells ≠ CClass.date := by
  have hc : ((cells.filter (fun c => !c.isMissing)).take 50).countP isDateCell = 0 := by
    rw [List.countP_eq_zero]
    intro a ha
    simp [h a (sample_subset cells a ha)]
  intro heq
  simp only [classifyCol] at heq
  rw [hc] at heq
  split_ifs at heq <;> simp_all

/-! ## Negative parses on canonical date text -/

theorem fmtDate_chars (t : ℕ × ℕ × ℕ) :
    ∀ c ∈ fmtDate t, (∃ k, k < 10 ∧ c = Nat.digitChar k) ∨ c = '-' := by
  obtain ⟨y, m, d⟩ := t
  intro c hc
  simp only [fmtDate, pad4, pad2, List.cons_append, List.nil_append,
    List.mem_cons, List.not_mem_nil, or_false] at hc
  rcases hc with rfl | rfl | rfl | rfl | rfl | rfl | rfl | rfl | rfl | rfl
  · exact Or.inl ⟨y / 1000 % 10, Nat.mod_lt _ (by omega), rfl⟩
  · exact Or.inl ⟨y / 100 % 10, Nat.mod_lt _ (by omega), rfl⟩
  · exact Or.inl ⟨y / 10 % 10, Nat.mod_lt _ (by omega), rfl⟩
  · exact Or.inl ⟨y % 10, Nat.mod_lt _ (by omega), rfl⟩
  · exact Or.inr rfl
  · exact Or.inl ⟨m / 10 % 10, Nat.mod_lt _ (by omega), rfl⟩
  · exact Or.inl ⟨m % 10, Nat.mod_lt _ (by omega), rfl⟩
  · exact Or.inr rfl
  · exact Or.inl ⟨d / 10 % 10, Nat.mod_lt _ (by omega), rfl⟩
  · exact Or.inl ⟨d % 10, Nat.mod_lt _ (by omega), rfl⟩

theorem fmtDate_ne_nil (t : ℕ × ℕ × ℕ) : fmtDate t ≠ [] := by
  obtain ⟨y, m, d⟩ := t
  simp [fmtDate, pad4, pad2]

theorem fmtDate_not_ws (t : ℕ × ℕ × ℕ) :
    ∀ c ∈ fmtDate t, isWsChar c = false := by
  intro c hc
  rcases fmtDate_chars t c hc with ⟨k, hk, rfl⟩ | rfl
  · exact (digitChar_not_special k hk).2.2.2.2
  · decide

theorem takeWhile_of_all {p : Char → Bool} (l : Str)
    (h : ∀ c ∈ l, p c = true) : l.takeWhile p = l :=
  List.takeWhile_eq_self_iff.mpr h

theorem parseUnsigned_none_of_bad (l : Str)
    (hdot : ∀ c ∈ l, (c = '.') = False)
    (hbad : ∃ c ∈ l, isDigitChar c = false) : parseUnsigned l = none := by
  unfold parseUnsigned
  have ht : l.takeWhile (fun c => decide ¬(c = '.')) = l := by
    apply takeWhile_of_all
    intro c hc
    simp [hdot c hc]
  have hd : l.dropWhile (fun c => decide ¬(c = '.')) = [] := by
    rw [List.dropWhile_eq_nil_iff]
    intro c hc
    simp [hdot c hc]
  rw [ht, hd]  -- may need adjusting for the exact decidable form
  obtain ⟨c, hcm, hcb⟩ := hbad
  have : l.all isDigitChar = false := by
    rw [← Bool.not_eq_true, List.all_eq_true]
    intro hall
    rw [hall c hcm] at hcb
    exact absurd hcb (by simp)
  simp [this]

theorem parseCurrency_fmtDate (t : ℕ × ℕ × ℕ) :
    parseCurrency (fmtDate t) = none := by
  obtain ⟨y, m, d⟩ := t
  have hh : (fmtDate (y, m, d)).head? = some (Nat.digitChar (y / 1000 % 10)) := rfl
  unfold parseCurrency
  rw [if_neg]
  · unfold parseCurrencyBody
    rw [if_neg]
    · have hfil : (fmtDate (y, m, d)).filter (fun c => decide ¬(c = ',')) =
          fmtDate (y, m, d) := by
        rw [List.filter_eq_self]
        intro c hc
        rcases fmtDate_chars _ c hc with ⟨k, hk, rfl⟩ | rfl
        · simpa using (digitChar_not_special k hk).2.2.1
        · decide
      rw [hfil]
      apply parseUnsigned_none_of_bad
      · intro c hc
        rcases fmtDate_chars _ c hc with ⟨k, hk, rfl⟩ | rfl
        · simpa using (digitChar_not_special k hk).2.2.2.1
        · decide
      · refine ⟨'-', ?_, by decide⟩
        simp [fmtDate, pad4, pad2]
    · rw [hh]
      intro hc
      simp only [Option.some.injEq] at hc
      exact (digitChar_not_special _ (Nat.mod_lt _ (by omega))).2.1 hc
  · rw [hh]
    intro hc
    simp only [Option.some.injEq] at hc
    exact (digitChar_not_special _ (Nat.mod_lt _ (by omega))).1 hc

theorem isCurrencyCell_fmtDate (t : ℕ × ℕ × ℕ) :
    isCurrencyCell (.str (fmtDate t)) = false := by
  simp [isCurrencyCell, parseCurrency_fmtDate]

theorem dateCellConv_idem (c : Cell) :
    dateCellConv (dateCellConv c) = dateCellConv c := by
  cases c with
  | missing => rfl
  | num q => rfl
  | str s =>
      simp only [dateCellConv]
      cases h : parseDateAny s with
      | none => rfl
      | some t =>
          simp only [dateCellConv]
          rw [parseDateAny_fmtDate t (parseDateAny_valid s t h)]

theorem dateCellConv_fix_of_conv (c : Cell) :
    dateCellConv (dateCellConv c) = dateCellConv c := dateCellConv_idem c

/-! ## StrOk invariants -/

theorem StrOk_of_not_str (c : Cell) (h : c.isStr = false) : StrOk c := by
  intro s hs
  subst hs
  simp [Cell.isStr] at h

theorem StrOk_trimCell (c : Cell) : StrOk (trimCell c) := by
  cases c with
  | missing => exact StrOk_of_not_str _ rfl
  | num q => exact StrOk_of_not_str _ rfl
  | str s =>
      simp only [trimCell]
      by_cases h : trimStr s = []
      · rw [if_pos h]
        exact StrOk_of_not_str _ rfl
      · rw [if_neg h]
        intro s2 hs2
        simp only [Cell.str.injEq] at hs2
        subst hs2
        exact ⟨trimStr_idem s, h⟩

theorem trimCell_of_StrOk (c : Cell) (h : StrOk c) : trimCell c = c := by
  cases c with
  | missing => rfl
  | num q => rfl
  | str s =>
      obtain ⟨h1, h2⟩ := h s rfl
      simp only [trimCell, h1]
      rw [if_neg h2]

theorem StrOk_dateCellConv (c : Cell) : StrOk (dateCellConv c) := by
  cases c with
  | missing => exact StrOk_of_not_str _ rfl
  | num q => exact StrOk_of_not_str _ rfl
  | str s =>
      simp only [dateCellConv]
      cases h : parseDateAny s with
      | none => exact StrOk_of_not_str _ rfl
      | some t =>
          intro s2 hs2
          simp only [Cell.str.injEq] at hs2
          subst hs2
          exact ⟨trimStr_of_all _ (fmtDate_not_ws t), fmtDate_ne_nil t⟩

theorem RowsOk_trim (rows : List Row) :
    RowsOk (rows.map (fun r => r.map trimCell)) := by
  intro r hr c hc
  simp only [List.mem_map] at hr
  obtain ⟨r0, _, rfl⟩ := hr
  simp only [List.mem_map] at hc
  obtain ⟨c0, _, rfl⟩ := hc
  exact StrOk_trimCell c0

theorem RowsOk_filter (rows : List Row) (p : Row → Bool) (h : RowsOk rows) :
    RowsOk (rows.filter p) := by
  intro r hr
  exact h r (List.filter_subset' _ hr)

theorem RowsOk_dedup (rows : List Row) (h : RowsOk rows) :
    RowsOk (dedupAux [] rows) := by
  intro r hr
  exact h r (dedupAux_subset rows [] r hr)

theorem RowsOk_currencyStage (rows : List Row) (h : RowsOk rows) :
    RowsOk (currencyStageRows rows) := by
  intro r hr c hc
  simp only [currencyStageRows, List.mem_map] at hr
  obtain ⟨r0, hr0, rfl⟩ := hr
  obtain ⟨c0, hc0, j, rfl⟩ := mapIdxFrom_mem _ r0 0 c hc
  by_cases hcl : classifyCol (colCells j rows) = CClass.currency
  · rw [if_pos hcl]
    exact StrOk_of_not_str _ (curCellConv_not_str c0)
  · rw [if_neg hcl]
    exact h r0 hr0 c0 hc0

theorem RowsOk_dateStage (rows : List Row) (h : RowsOk rows) :
    RowsOk (dateStageRows rows) := by
  intro r hr c hc
  simp only [dateStageRows, List.mem_map] at hr
  obtain ⟨r0, hr0, rfl⟩ := hr
  obtain ⟨c0, hc0, j, rfl⟩ := mapIdxFrom_mem _ r0 0 c hc
  by_cases hcl : classifyCol (colCells j rows) = CClass.date
  · rw [if_pos hcl]
    exact StrOk_dateCellConv c0
  · rw [if_neg hcl]
    exact h r0 hr0 c0 hc0

/-! ## Ignore strategy facts -/

theorem fillValFor_ignore (cells : List Cell) (cl : CClass) :
    fillValFor cells cl .ignore .ignore = none := by
  by_cases hb : numericClassB cl <;> simp [fillValFor, hb]

theorem fillStageRows_ignore (rows : List Row) :
    fillStageRows .ignore .ignore rows = rows := by
  unfold fillStageRows
  apply stageRows_eq_self
  intro j c _
  by_cases h : c.isMissing
  · simp [h, fillValFor_ignore]
  · simp [h]

theorem fillStageLog_ignore (rows : List Row) :
    fillStageLog .ignore .ignore rows = [] := by
  unfold fillStageLog
  rw [List.filterMap_eq_nil]
  intro j _
  rw [if_neg]
  rw [fillValFor_ignore]
  simp

/-! ## Stability of the conversion stages -/

theorem isCurrencyCell_dateConv (c : Cell) :
    isCurrencyCell (dateCellConv c) = false := by
  cases c with
  | missing => rfl
  | num q => rfl
  | str s =>
      simp only [dateCellConv]
      cases h : parseDateAny s with
      | none => rfl
      | some t => exact isCurrencyCell_fmtDate t

theorem colCells_currencyStage (r3 : List Row) (j : ℕ) :
    colCells j (currencyStageRows r3) = (colCells j r3).map
      (fun c => if classifyCol (colCells j r3) = CClass.currency
        then curCellConv c else c) := by
  unfold currencyStageRows
  exact colCells_stage _ j r3

theorem colCells_dateStage (r4 : List Row) (j : ℕ) :
    colCells j (dateStageRows r4) = (colCells j r4).map
      (fun c => if classifyCol (colCells j r4) = CClass.date
        then dateCellConv c else c) := by
  unfold dateStageRows
  exact colCells_stage _ j r4

theorem stage5_stable (r3 : List Row) (j : ℕ) :
    classifyCol (colCells j (dateStageRows (currencyStageRows r3))) ≠
        CClass.currency ∧
      ∀ c ∈ colCells j (dateStageRows (currencyStageRows r3)),
        dateCellConv c = c ∨
          classifyCol (colCells j (dateStageRows (currencyStageRows r3))) ≠
            CClass.date := by
  have h4 := colCells_currencyStage r3 j
  have h5 := colCells_dateStage (currencyStageRows r3) j
  by_cases hcur : classifyCol (colCells j r3) = CClass.currency
  · have h4x : colCells j (currencyStageRows r3) =
        (colCells j r3).map curCellConv := by
      rw [h4]
      exact List.map_congr_left (fun c _ => if_pos hcur)
    have hns4 : ∀ c ∈ colCells j (currencyStageRows r3), c.isStr = false := by
      intro c hc
      rw [h4x] at hc
      simp only [List.mem_map] at hc
      obtain ⟨c0, _, rfl⟩ := hc
      exact curCellConv_not_str c0
    have hnd4 : classifyCol (colCells j (currencyStageRows r3)) ≠ CClass.date :=
      classify_not_date _ (fun c hc => isDateCell_of_not_str c (hns4 c hc))
    have h5x : colCells j (dateStageRows (currencyStageRows r3)) =
        colCells j (currencyStageRows r3) := by
      rw [h5]
      refine (List.map_congr_left ?_).trans (List.map_id _)
      intro c _
      exact if_neg hnd4
    constructor
    · rw [h5x]
      exact classify_not_currency _
        (fun c hc => isCurrencyCell_of_not_str c (hns4 c hc))
    · intro c _
      rw [h5x]
      exact Or.inr hnd4
  · have h4x : colCells j (currencyStageRows r3) = colCells j r3 := by
      rw [h4]
      refine (List.map_congr_left ?_).trans (List.map_id _)
      intro c _
      exact if_neg hcur
    by_cases hdat : classifyCol (colCells j (currencyStageRows r3)) = CClass.date
    · have h5x : colCells j (dateStageRows (currencyStageRows r3)) =
          (colCells j (currencyStageRows r3)).map dateCellConv := by
        rw [h5]
        exact List.map_congr_left (fun c _ => if_pos hdat)
      constructor
      · rw [h5x]
        apply classify_not_currency
        intro c hc
        simp only [List.mem_map] at hc
        obtain ⟨c0, _, rfl⟩ := hc
        exact isCurrencyCell_dateConv c0
      · intro c hc
        rw [h5x] at hc
        simp only [List.mem_map] at hc
        obtain ⟨c0, _, rfl⟩ := hc
        exact Or.inl (dateCellConv_idem c0)
    · have h5x : colCells j (dateStageRows (currencyStageRows r3)) =
          colCells j (currencyStageRows r3) := by
        rw [h5]
        refine (List.map_congr_left ?_).trans (List.map_id _)
        intro c _
        exact if_neg hdat
      constructor
      · rw [h5x, h4x]
        exact hcur
      · intro c _
        rw [h5x]
        exact Or.inr hdat

theorem currencyStage_stable (r3 : List Row) :
    currencyStageRows (dateStageRows (currencyStageRows r3)) =
        dateStageRows (currencyStageRows r3) ∧
      currencyStageLog (dateStageRows (currencyStageRows r3)) = [] := by
  constructor
  · refine stageRows_eq_self _ _ ?_
    intro j c _
    rw [if_neg (stage5_stable r3 j).1]
  · unfold currencyStageLog
    rw [List.filterMap_eq_nil]
    intro j _
    rw [if_neg (stage5_stable r3 j).1]

theorem dateStage_stable (r3 : List Row) :
    dateStageRows (dateStageRows (currencyStageRows r3)) =
        dateStageRows (currencyStageRows r3) ∧
      dateStageLog (dateStageRows (currencyStageRows r3)) = [] := by
  constructor
  · refine stageRows_eq_self _ _ ?_
    intro j c hc
    by_cases hd : classifyCol (colCells j (dateStageRows (currencyStageRows r3))) =
        CClass.date
    · rw [if_pos hd]
      rcases (stage5_stable r3 j).2 c hc with h | h
      · exact h
      · exact absurd hd h
    · rw [if_neg hd]
  · unfold dateStageLog
    rw [List.filterMap_eq_nil]
    intro j _
    rw [if_neg]
    intro hcond
    obtain ⟨hd, hcnt⟩ := hcond
    have hz : (colCells j (dateStageRows (currencyStageRows r3))).countP
        (fun c => !(dateCellConv c == c)) = 0 := by
      rw [List.countP_eq_zero]
      intro c hc
      rcases (stage5_stable r3 j).2 c hc with h | h
      · simp [h]
      · exact absurd hd h
    omega

/-! ## Header stage stability -/

theorem zip_self_eq {α : Type} : ∀ (l : List α) (p : α × α), p ∈ l.zip l →
    p.1 = p.2 := by
  intro l
  induction l with
  | nil => intro p h; simp at h
  | cons x t ih =>
      intro p h
      simp only [List.zip_cons_cons, List.mem_cons] at h
      rcases h with rfl | h
      · rfl
      · exact ih p h

theorem standardize_stable (hs : List Str)
    (hh : ∀ h ∈ hs, normalizeName h ≠ []) :
    standardizeHeaders (uniqAux [] (hs.map normalizeName)) =
      (uniqAux [] (hs.map normalizeName), []) := by
  have hfix : ∀ x ∈ uniqAux [] (hs.map normalizeName), normalizeName x = x := by
    intro x hx
    obtain ⟨nm, hnm, hc⟩ := uniqAux_provenance _ [] x hx
    simp only [List.mem_map] at hnm
    obtain ⟨h0, hh0, rfl⟩ := hnm
    rcases hc with rfl | ⟨k, rfl⟩
    · exact normalizeName_idem h0
    · exact normalizeName_suffix_fix h0 k (hh h0 hh0)
  have hmap : (uniqAux [] (hs.map normalizeName)).map normalizeName =
      uniqAux [] (hs.map normalizeName) :=
    (List.map_congr_left (fun x hx => hfix x hx)).trans (List.map_id _)
  have hnodup := (uniqAux_nodup (hs.map normalizeName) []).1
  have huniq : uniqAux [] ((uniqAux [] (hs.map normalizeName)).map normalizeName) =
      uniqAux [] (hs.map normalizeName) := by
    rw [hmap]
    exact uniqAux_eq_self _ [] hnodup (by simp)
  unfold standardizeHeaders
  rw [huniq]
  simp only [Prod.mk.injEq, true_and]
  rw [List.filterMap_eq_nil]
  intro p hp
  rw [if_pos (zip_self_eq _ p hp)]

theorem trimRows_of_RowsOk (rows : List Row) (h : RowsOk rows) :
    rows.map (fun r => r.map trimCell) = rows := by
  refine (List.map_congr_left ?_).trans (List.map_id _)
  intro r hr
  refine (List.map_congr_left ?_).trans (List.map_id _)
  intro c hc
  exact trimCell_of_StrOk c (h r hr c hc)

theorem standardize_fixpoint (H : List Str)
    (hfix : ∀ x ∈ H, normalizeName x = x) (hnd : H.Nodup) :
    standardizeHeaders H = (H, []) := by
  have hmap : H.map normalizeName = H :=
    (List.map_congr_left hfix).trans (List.map_id _)
  unfold standardizeHeaders
  rw [hmap, uniqAux_eq_self H [] hnd (by simp)]
  simp only [Prod.mk.injEq, true_and]
  rw [List.filterMap_eq_nil]
  intro p hp
  rw [if_pos (zip_self_eq _ p hp)]

theorem uniqAux_norm_fix (hs : List Str)
    (hh : ∀ h ∈ hs, normalizeName h ≠ []) :
    ∀ x ∈ uniqAux [] (hs.map normalizeName), normalizeName x = x := by
  intro x hx
  obtain ⟨nm, hnm, hc⟩ := uniqAux_provenance _ [] x hx
  simp only [List.mem_map] at hnm
  obtain ⟨h0, hh0, rfl⟩ := hnm
  rcases hc with rfl | ⟨k, rfl⟩
  · exact normalizeName_idem h0
  · exact normalizeName_suffix_fix h0 k (hh h0 hh0)

theorem clean_fixpoint (U : Table)
    (hfix : ∀ x ∈ U.headers, normalizeName x = x)
    (hnodup : U.headers.Nodup)
    (hok : RowsOk U.rows)
    (ha : ∀ r ∈ U.rows, rowEmpty r = false)
    (hb : U.rows.Nodup)
    (hrows : ∃ r3, U.rows = dateStageRows (currencyStageRows r3)) :
    clean U .ignore .ignore = (U, []) := by
  obtain ⟨r3, hUr⟩ := hrows
  have e1 : U.rows.map (fun r => r.map trimCell) = U.rows :=
    trimRows_of_RowsOk _ hok
  have e2 : U.rows.filter (fun r => !rowEmpty r) = U.rows := by
    rw [List.filter_eq_self]
    intro r hr
    rw [ha r hr]
    rfl
  have e3 : dedupAux [] U.rows = U.rows :=
    dedupAux_eq_self _ [] hb (by simp)
  simp only [clean]
  rw [standardize_fixpoint U.headers hfix hnodup, e1, e2, e3, hUr,
    (currencyStage_stable r3).1, (dateStage_stable r3).1, fillStageRows_ignore,
    fillStageLog_ignore, (currencyStage_stable r3).2, (dateStage_stable r3).2]
  simp only [lt_irrefl, if_false, List.append_nil, List.nil_append]
  rw [← hUr]

theorem clean_idem_core (T : Table)
    (hh : ∀ h ∈ T.headers, normalizeName h ≠ [])
    (ha : ∀ r ∈ (clean T .ignore .ignore).1.rows, rowEmpty r = false)
    (hb : (clean T .ignore .ignore).1.rows.Nodup) :
    clean (clean T .ignore .ignore).1 .ignore .ignore =
      ((clean T .ignore .ignore).1, []) := by
  have hUh : (clean T .ignore .ignore).1.headers =
      uniqAux [] (T.headers.map normalizeName) := rfl
  have hUr : (clean T .ignore .ignore).1.rows =
      dateStageRows (currencyStageRows (dedupAux []
        ((T.rows.map (fun r => r.map trimCell)).filter
          (fun r => !rowEmpty r)))) := by
    show fillStageRows .ignore .ignore _ = _
    rw [fillStageRows_ignore]
  apply clean_fixpoint
  · rw [hUh]
    exact uniqAux_norm_fix T.headers hh
  · rw [hUh]
    exact (uniqAux_nodup (T.headers.map normalizeName) []).1
  · rw [hUr]
    exact RowsOk_dateStage _ (RowsOk_currencyStage _ (RowsOk_dedup _
      (RowsOk_filter _ _ (RowsOk_trim T.rows))))
  · exact ha
  · exact hb
  · exact ⟨_, hUr⟩

/-! ## Row counting through the pipeline -/

theorem currencyStageRows_length (rows : List Row) :
    (currencyStageRows rows).length = rows.length := by
  unfold currencyStageRows
  exact List.length_map _ _

theorem dateStageRows_length (rows : List Row) :
    (dateStageRows rows).length = rows.length := by
  unfold dateStageRows
  exact List.length_map _ _

theorem fillStageRows_length (s1 s2 : Strategy) (rows : List Row) :
    (fillStageRows s1 s2 rows).length = rows.length := by
  unfold fillStageRows
  exact List.length_map _ _

theorem clean_rows_length (T : Table) (s1 s2 : Strategy) :
    (clean T s1 s2).1.rows.length ≤ T.rows.length := by
  have h1 : (clean T s1 s2).1.rows = fillStageRows s1 s2 (dateStageRows
      (currencyStageRows (dedupAux [] ((T.rows.map (fun r => r.map trimCell)).filter
        (fun r => !rowEmpty r))))) := rfl
  rw [h1, fillStageRows_length, dateStageRows_length, currencyStageRows_length]
  calc (dedupAux [] ((T.rows.map (fun r => r.map trimCell)).filter
        (fun r => !rowEmpty r))).length
      ≤ ((T.rows.map (fun r => r.map trimCell)).filter
          (fun r => !rowEmpty r)).length := dedupAux_length_le _ _
    _ ≤ (T.rows.map (fun r => r.map trimCell)).length := List.length_filter_le _ _
    _ = T.rows.length := List.length_map _ _

/-! # Claim theorems -/

/-- C1: the pricing calculator satisfies the boundary values: price of
100 rows is (0.00, 100), price of 150 rows is (1.00, 150) since the 50
rows above the free allotment are each charged 0.02, price of 0 rows is
(0.00, 0), and every row count at or below the free tier bound of 100
costs nothing. -/
theorem claim_pricing_boundary (n : ℕ) (h : n ≤ 100) :
    calculate_price n = some (0, n) ∧ calculate_price 150 = some (1, 150) ∧
      calculate_price 0 = some (0, 0) ∧ calculate_price 100 = some (0, 100) := by
  have h150 : priceCostMils 150 = 1000 := by decide
  have h150q : priceCost 150 = 1 := by
    rw [priceCost, h150]
    norm_num
  refine ⟨?_, ?_, ?_, ?_⟩
  · simp only [calculate_price]
    rw [if_neg (by omega), priceCost_free n h]
  · simp only [calculate_price]
    rw [if_neg (by omega), h150q]
  · simp only [calculate_price]
    rw [if_neg (by omega), priceCost_free 0 (by omega)]
  · simp only [calculate_price]
    rw [if_neg (by omega), priceCost_free 100 (by omega)]

theorem claim_pricing_boundary_witness :
    100 ≤ 100 ∧ (calculate_price 100 = some (0, 100) ∧
      calculate_price 150 = some (1, 150) ∧ calculate_price 0 = some (0, 0) ∧
      calculate_price 100 = some (0, 100)) :=
  ⟨by decide, claim_pricing_boundary 100 (by decide)⟩

/-- C2: the cost computed by the pricing calculator is monotonically
non-decreasing in the row count, its value at 0 rows is 0, and for every
row count within the supported bounds the calculator returns exactly
that cost paired with the row count. -/
theorem claim_pricing_monotone :
    priceCost 0 = 0 ∧ (∀ n, priceCost n ≤ priceCost (n + 1)) ∧
      ∀ n, n ≤ 100000 → calculate_price n = some (priceCost n, n) := by
  refine ⟨?_, ?_, ?_⟩
  · rw [priceCost, priceCostMils_free 0 (by omega)]
    norm_num
  · intro n
    unfold priceCost
    have hmils := costMilsAux_mono tierTable 0 n (n + 1) (by omega)
    have hcast : (priceCostMils n : ℚ) ≤ (priceCostMils (n + 1) : ℚ) := by
      exact_mod_cast hmils
    exact div_le_div_of_nonneg_right hcast (by norm_num)
  · intro n hn
    simp only [calculate_price]
    rw [if_neg (by omega)]

theorem claim_pricing_monotone_witness :
    50 ≤ 100000 ∧ calculate_price 50 = some (priceCost 50, 50) :=
  ⟨by decide, claim_pricing_monotone.2.2 50 (by decide)⟩

/-- C3: for every row count strictly greater than the maximum tier bound
of 100000, the pricing calculator signals requires-custom-pricing (the
none result) instead of returning a numeric cost. -/
theorem claim_pricing_custom (n : ℕ) (h : 100000 < n) :
    calculate_price n = none := by
  simp [calculate_price, h]

theorem claim_pricing_custom_witness :
    100000 < 100001 ∧ calculate_price 100001 = none :=
  ⟨by decide, claim_pricing_custom 100001 (by decide)⟩

/-- C4: for every uploaded table with more than 100000 rows the app-side
gate reports the capacity error and stops before the cleaning pipeline
is invoked; the pipeline itself (the total function clean) imposes no
upper bound on the row count. -/
theorem claim_capacity_gate (t : Table) (s1 s2 : Strategy)
    (h : 100000 < t.rows.length) :
    processUpload t s1 s2 = Except.error AppError.capacity := by
  simp [processUpload, h]

theorem claim_capacity_gate_witness :
    100000 < (List.replicate 100001 ([] : Row)).length ∧
      processUpload ⟨[['a']], List.replicate 100001 ([] : Row)⟩
        .ignore .ignore = Except.error AppError.capacity := by
  have hlen : 100000 < (List.replicate 100001 ([] : Row)).length := by
    rw [List.length_replicate]
    omega
  exact ⟨hlen, claim_capacity_gate _ _ _ hlen⟩

/-- C5: for every input table and strategies, the headers of the cleaned
table are pairwise distinct; collisions of normalized names are resolved
by appending the smallest free numeric suffix in order of first
occurrence. -/
theorem claim_headers_nodup (T : Table) (s1 s2 : Strategy) :
    ((clean T s1 s2).1.headers).Nodup := by
  have h : (clean T s1 s2).1.headers =
      uniqAux [] (T.headers.map normalizeName) := rfl
  rw [h]
  exact (uniqAux_nodup _ []).1

/-- C6 counterexample: cleaning a second time with the ignore strategies
is not always the identity with an empty log.  A currency column with an
unparseable cell degrades that cell to missing after the empty-row drop
already ran, so the second clean drops the now-all-missing row and logs
it. -/
theorem claim_idem_counterexample :
    clean (clean (Table.mk [['a', 'm', 'o', 'u', 'n', 't']]
        [[Cell.str ['$', '1']], [Cell.str ['$', '2']],
         [Cell.str ['a', 'b', 'c']]]) .ignore .ignore).1 .ignore .ignore ≠
      ((clean (Table.mk [['a', 'm', 'o', 'u', 'n', 't']]
        [[Cell.str ['$', '1']], [Cell.str ['$', '2']],
         [Cell.str ['a', 'b', 'c']]]) .ignore .ignore).1, []) := by
  decide

/-- C6 amended: for tables whose headers normalize to nonempty names and
whose first cleaned result (with the ignore strategies) contains no
all-missing row and no duplicate rows, applying clean a second time with
the ignore strategies returns the first cleaned table unchanged with an
empty incremental log. -/
theorem claim_idem_amended (T : Table)
    (hh : ∀ h ∈ T.headers, normalizeName h ≠ [])
    (ha : ∀ r ∈ (clean T .ignore .ignore).1.rows, rowEmpty r = false)
    (hb : (clean T .ignore .ignore).1.rows.Nodup) :
    clean (clean T .ignore .ignore).1 .ignore .ignore =
      ((clean T .ignore .ignore).1, []) :=
  clean_idem_core T hh ha hb

theorem claim_idem_amended_witness :
    ((∀ h ∈ (Table.mk [['a']] [[Cell.str ['x']], [Cell.str ['y']]]).headers,
        normalizeName h ≠ []) ∧
      (∀ r ∈ (clean (Table.mk [['a']] [[Cell.str ['x']], [Cell.str ['y']]])
          .ignore .ignore).1.rows, rowEmpty r = false) ∧
      (clean (Table.mk [['a']] [[Cell.str ['x']], [Cell.str ['y']]])
          .ignore .ignore).1.rows.Nodup) ∧
    clean (clean (Table.mk [['a']] [[Cell.str ['x']], [Cell.str ['y']]])
        .ignore .ignore).1 .ignore .ignore =
      ((clean (Table.mk [['a']] [[Cell.str ['x']], [Cell.str ['y']]])
        .ignore .ignore).1, []) :=
  ⟨⟨by decide, by decide, by decide⟩,
    claim_idem_amended _ (by decide) (by decide) (by decide)⟩

/-- C7: for every input table and any strategies, the cleaned table has
at most as many rows as the input: empty-row and duplicate removal only
remove rows, and no stage adds rows. -/
theorem claim_rows_le (T : Table) (s1 s2 : Strategy) :
    (clean T s1 s2).1.rows.length ≤ T.rows.length :=
  clean_rows_length T s1 s2

/-- C8: with the header-less flag, the file reader synthesizes column
names column_0, column_1, and so on: the list has one name per column
and the name at zero-based index i is the text column_ followed by the
decimal rendering of i. -/
theorem claim_synth_headers :
    (∀ n, (synthColumnNames n).length = n) ∧
      ∀ n i, i < n → (synthColumnNames n).get? i =
        some (['c', 'o', 'l', 'u', 'm', 'n', '_'] ++ natRepr i) := by
  constructor
  · intro n
    simp [synthColumnNames]
  · intro n i h
    simp only [synthColumnNames]
    rw [List.get?_map, List.get?_range h]
    rfl

theorem claim_synth_headers_witness :
    2 < 3 ∧ (synthColumnNames 3).get? 2 =
      some (['c', 'o', 'l', 'u', 'm', 'n', '_'] ++ natRepr 2) :=
  ⟨by decide, claim_synth_headers.2 3 2 (by decide)⟩

/-- C9: append_log_to_sheet appends exactly one row to the sheet, leaves
the existing rows untouched, and that row carries the timestamp, email,
row count and charged amount of the entry (with the filename between
them), each field defaulting to the empty string when absent. -/
theorem claim_append_log (sheet : List (List SheetVal)) (e : UsageEntry) :
    (append_log_to_sheet sheet e).length = sheet.length + 1 ∧
      (append_log_to_sheet sheet e).dropLast = sheet ∧
      (append_log_to_sheet sheet e).getLast? = some (usageRow e) ∧
      (usageRow e).length = 5 ∧
      (usageRow e).get? 0 = some ((e.timestamp.map SheetVal.s).getD (.s [])) ∧
      (usageRow e).get? 1 = some ((e.email.map SheetVal.s).getD (.s [])) ∧
      (usageRow e).get? 3 = some ((e.row_count.map SheetVal.i).getD (.s [])) ∧
      (usageRow e).get? 4 = some ((e.charged.map SheetVal.q).getD (.s [])) := by
  refine ⟨?_, ?_, ?_, rfl, rfl, rfl, rfl, rfl⟩
  · simp [append_log_to_sheet]
  · simp [append_log_to_sheet]
  · simp [append_log_to_sheet]

/-- C10: for every uploaded table with zero data rows, the app reports
the minimum-row error and stops before the cleaning pipeline is invoked:
the caller enforces a minimum of one data row. -/
theorem claim_min_rows_gate (t : Table) (s1 s2 : Strategy)
    (h : t.rows.length = 0) :
    processUpload t s1 s2 = Except.error AppError.tooFewRows := by
  simp [processUpload, h]

theorem claim_min_rows_gate_witness :
    (Table.mk [['a']] []).rows.length = 0 ∧
      processUpload (Table.mk [['a']] []) .ignore .ignore =
        Except.error AppError.tooFewRows :=
  ⟨by decide, claim_min_rows_gate _ _ _ (by decide)⟩
